import Mathlib

/-!
Verification of the wunderland-sol maintenance scripts.

The repository holds three standalone Python scripts:
  * `scripts/rename_commits.py`  — commit-message classifier and normalizer
    (`TYPES`, `classify`, `normalize_subject`, `rename_message`);
  * `scripts/author_rewrite.py`  — git identity rewrite callback;
  * `update_lemon_upsert.py`     — single-occurrence literal text patcher.

Strings are embedded as `List Char` (Python `str` is a sequence of code
points, so `List Char` is a faithful model; the byte strings handled by the
scripts are decoded text).  Python's Unicode whitespace class (used by
`str.strip` and by the regex class `\s`) is embedded as `isPySpace`.
Regular-expression matching in `classify` is embedded by the exact
deterministic matching procedure the two anchored patterns perform,
alternative by alternative, including greedy/backtracking behaviour
(derivations are noted at each definition).  Word characters for the
word-boundary test are modelled over the ASCII range, which covers every
keyword and every input the claims mention.
-/

/-- Python's Unicode whitespace class: the set accepted by `str.isspace`,
stripped by `str.strip`, and matched by the regex class `\s`
(U+0009–U+000D, U+001C–U+001F, space, U+0085, U+00A0, U+1680,
U+2000–U+200A, U+2028, U+2029, U+202F, U+205F, U+3000). -/
def isPySpace (c : Char) : Bool :=
  decide ((9 ≤ c.toNat ∧ c.toNat ≤ 13) ∨ (28 ≤ c.toNat ∧ c.toNat ≤ 31) ∨
    c.toNat = 32 ∨ c.toNat = 133 ∨ c.toNat = 160 ∨ c.toNat = 5760 ∨
    (8192 ≤ c.toNat ∧ c.toNat ≤ 8202) ∨ c.toNat = 8232 ∨ c.toNat = 8233 ∨
    c.toNat = 8239 ∨ c.toNat = 8287 ∨ c.toNat = 12288)

/-- The regex character class `[A-Za-z]` (code points 65–90 and 97–122). -/
def isAsciiAlpha (c : Char) : Bool :=
  decide ((65 ≤ c.toNat ∧ c.toNat ≤ 90) ∨ (97 ≤ c.toNat ∧ c.toNat ≤ 122))

/-- `str.lower` on the ASCII letters (the only characters it is applied to
by `classify`: regex group 1 of the colon form is `[A-Za-z]+`, and the
keyword form's group 1 is one of ten ASCII keywords). -/
def lowerChar (c : Char) : Char :=
  if 'A' ≤ c ∧ c ≤ 'Z' then Char.ofNat (c.toNat + 32) else c

/-- `str.lower` over a string, character by character. -/
def toLowerStr (l : List Char) : List Char := l.map lowerChar

/-- Word characters for the regex word-boundary `\b`, modelled over the
ASCII range: letters, digits and underscore. -/
def isWordChar (c : Char) : Bool := c.isAlphanum || c == '_'

/-- The separator class `[:\s-]` of the keyword-form regex. -/
def isSepChar (c : Char) : Bool := c == ':' || c == '-' || isPySpace c

/-- Python `str.strip()`: drop leading and trailing `isPySpace` characters. -/
def pyStrip (l : List Char) : List Char :=
  ((l.dropWhile isPySpace).reverse.dropWhile isPySpace).reverse

/-- The static keyword mapping `TYPES` of `rename_commits.py`,
in source order. -/
def TYPES : List (List Char × List Char) :=
  [("feature".toList, "feat".toList), ("feat".toList, "feat".toList),
   ("fix".toList, "fix".toList), ("bugfix".toList, "fix".toList),
   ("chore".toList, "chore".toList), ("docs".toList, "docs".toList),
   ("documentation".toList, "docs".toList),
   ("refactor".toList, "refactor".toList), ("test".toList, "test".toList),
   ("tests".toList, "test".toList), ("perf".toList, "perf".toList),
   ("performance".toList, "perf".toList), ("build".toList, "build".toList),
   ("ci".toList, "ci".toList), ("revert".toList, "revert".toList),
   ("wip".toList, "chore".toList), ("cleanup".toList, "chore".toList)]

/-- `TYPES.get(key, 'chore')`. -/
def typeOf (k : List Char) : List Char :=
  (List.lookup k TYPES).getD ("chore".toList)

/-- The value set of `TYPES`: the ten canonical type keywords. -/
def canonicalTypes : List (List Char) :=
  ["feat".toList, "fix".toList, "chore".toList, "docs".toList,
   "refactor".toList, "test".toList, "perf".toList, "build".toList,
   "ci".toList, "revert".toList]

/-- The part of the colon-form regex after group 1
(`(\([^)]*\))?` followed by the mandatory `:`): on a string starting with
`(`, the optional scope group must consume up to the first `)` (the class
`[^)]*` cannot cross one, and the alternative of skipping the group dies
immediately because `(` is not `:`); otherwise the scope group matches
nothing.  Returns what remains after the optional scope. -/
def afterTypeToken : List Char → Option (List Char)
  | [] => some []
  | c :: r2 =>
    if c = '(' then
      if (r2.takeWhile (fun x => x != ')')).length < r2.length then
        some (r2.drop ((r2.takeWhile (fun x => x != ')')).length + 1))
      else none
    else some (c :: r2)

/-- `re.match(r"^([A-Za-z]+)(\([^)]*\))?:\s*(.*)$", s0)` on a stripped
string `s0`, returning groups 1 and 3.  Group 1 must be the maximal leading
letter run (a shorter run is followed by a letter, which can start neither
the scope nor `:`).  After the colon, greedy `\s*` takes the maximal
whitespace run; the match succeeds iff what is left for `(.*)$` contains no
newline — `.` does not cross `'\n'`, a shorter `\s*` only prepends
characters to the `.*` region, and `$` is end-of-string because a stripped
string has no trailing newline. -/
def tryColonForm (s0 : List Char) : Option (List Char × List Char) :=
  if (s0.takeWhile isAsciiAlpha).isEmpty then none
  else
    match afterTypeToken (s0.dropWhile isAsciiAlpha) with
    | some (c :: r) =>
      if c = ':' then
        if '\n' ∈ r.dropWhile isPySpace then none
        else some (s0.takeWhile isAsciiAlpha, r.dropWhile isPySpace)
      else none
    | _ => none

/-- The alternatives of the keyword-form regex
`^(WIP|Fix|Feature|Docs?|Refactor|Test|Perf|Build|CI)\b[:\s-]*(.*)$`,
in alternation order (the greedy `s?` puts `Docs` before `Doc`). -/
def KEYWORDS : List (List Char) :=
  ["WIP".toList, "Fix".toList, "Feature".toList, "Docs".toList,
   "Doc".toList, "Refactor".toList, "Test".toList, "Perf".toList,
   "Build".toList, "CI".toList]

/-- One alternative of the keyword-form regex: a case-insensitive match of
the keyword at the start (`re.I`), followed by the word boundary `\b`
(every keyword ends in a letter, so the boundary holds iff the input ends
there or continues with a non-word character). -/
def kwMatch (k s0 : List Char) : Bool :=
  (toLowerStr (s0.take k.length) == toLowerStr k) &&
    ((s0.drop k.length).isEmpty || !isWordChar ((s0.drop k.length).headD 'a'))

/-- `re.match` of the keyword-form regex on a stripped string `s0`,
returning groups 1 and 2.  The alternation takes the first alternative that
matches with its boundary; no two alternatives can both pass (distinct
same-start keywords are never both prefixes of `s0` except `Docs`/`Doc`,
and whenever `Docs` is a prefix the character after `Doc` is the word
character `s`, killing `Doc`'s boundary), so if the separator/rest part
then fails there is no further backtracking.  As for the colon form, the
rest matches iff it contains no newline once the greedy `[:\s-]*` run is
removed. -/
def tryKeywordForm (s0 : List Char) : Option (List Char × List Char) :=
  match KEYWORDS.find? (fun k => kwMatch k s0) with
  | some k =>
    let rest := (s0.drop k.length).dropWhile isSepChar
    if '\n' ∈ rest then none else some (s0.take k.length, rest)
  | none => none

/-- `classify` of `rename_commits.py` (`s0 = s.strip()` is written out as
`pyStrip s` at each use). -/
def classify (s : List Char) : List Char :=
  match tryColonForm (pyStrip s) with
  | some (t, rest) => typeOf (toLowerStr t) ++ ':' :: ' ' :: pyStrip rest
  | none =>
    match tryKeywordForm (pyStrip s) with
    | some (rawt, rest) =>
      typeOf (toLowerStr rawt) ++ ':' :: ' ' ::
        (if (pyStrip rest).isEmpty then pyStrip s else pyStrip rest)
    | none =>
      if (pyStrip s).isEmpty then "chore: empty commit".toList
      else "chore".toList ++ ':' :: ' ' :: pyStrip s

/-- Helper for `collapseWs`: `inRun` records whether the scan is inside a
whitespace run whose single replacement space has already been emitted. -/
def collapseAux (inRun : Bool) : List Char → List Char
  | [] => []
  | c :: t =>
    if isPySpace c then
      if inRun then collapseAux true t
      else ' ' :: collapseAux true t
    else c :: collapseAux false t

/-- `re.sub(r"\s+", " ", subj)`: replace every maximal whitespace run by a
single space. -/
def collapseWs (l : List Char) : List Char := collapseAux false l

/-- `normalize_subject` of `rename_commits.py`: classify, collapse
whitespace runs, strip, truncate to 120 characters. -/
def normalize_subject (subj : List Char) : List Char :=
  (pyStrip (collapseWs (classify subj))).take 120

/-- `text.split('\n', 1)[0]` (also the whole of `text` when it has no
newline). -/
def firstLine (t : List Char) : List Char := t.takeWhile (fun c => c != '\n')

/-- `text.split('\n', 1)[1]`, and `''` when `text` has no newline. -/
def restLines (t : List Char) : List Char :=
  (t.dropWhile (fun c => c != '\n')).drop 1

/-- `rename_message` of `rename_commits.py` (the filter-repo message
callback; the unused `metadata` argument is omitted, and the UTF-8
decode of the byte string is the identity on the decoded text). -/
def rename_message (msg : List Char) : List Char :=
  if msg.isEmpty then "chore: empty commit".toList
  else
    let text := pyStrip msg
    let rest := restLines text
    let subj := normalize_subject (firstLine text)
    if rest.isEmpty then subj
    else
      let body := pyStrip rest
      if body.isEmpty then subj
      else subj ++ '\n' :: '\n' :: body

/-- A commit's mutable identity fields, as exposed to the
`git filter-repo` commit callback used by `author_rewrite.py`. -/
structure Commit where
  author_name : String
  author_email : String
  committer_name : String
  committer_email : String

/-- `target_name` of `author_rewrite.py`. -/
def target_name : String := "Framers"

/-- `target_email` of `author_rewrite.py`. -/
def target_email : String := "team@frame.dev"

/-- `new_name` of `author_rewrite.py`. -/
def new_name : String := "Johnny Dunn"

/-- `new_email` of `author_rewrite.py`. -/
def new_email : String := "johnnyfived@protonmail.com"

/-- The commit callback body of `author_rewrite.py`: each of the two
in-place mutations becomes a functional update. -/
def author_rewrite (c : Commit) : Commit :=
  let c1 :=
    if c.author_name = target_name ∨ c.author_email = target_email then
      { c with author_name := new_name, author_email := new_email }
    else c
  if c1.committer_name = target_name ∨ c1.committer_email = target_email then
    { c1 with committer_name := new_name, committer_email := new_email }
  else c1

/-- The exact expected fragment (`needle`) of `update_lemon_upsert.py`. -/
def needle : List Char :=
  ("  await upsertUserFromSubscription(\x7b\n    email,\n    subscriptionStatus: normalizedStatus || \x27active\x27,\n    subscriptionTier: plan?.metadata?.tier ?? (normalizedStatus === \x27active\x27 ? \x27unlimited\x27 : \x27metered\x27),\n    lemonSubscriptionId,\n").toList

/-- The literal replacement fragment of `update_lemon_upsert.py`. -/
def replacement : List Char :=
  ("  await upsertUserFromSubscription(\x7b\n    email,\n    subscriptionStatus: normalizedStatus || \x27active\x27,\n    subscriptionTier: plan?.metadata?.tier ?? (normalizedStatus === \x27active\x27 ? \x27unlimited\x27 : \x27metered\x27),\n    subscriptionPlanId: planId ?? null,\n    lemonSubscriptionId,\n").toList

/-- The abort message of `update_lemon_upsert.py`. -/
def notFoundMsg : String := "upsert call not found in lemonsqueezy service"

/-- The number of occurrences of `pat` in `t` (occurrences at distinct
start positions, as counted by Python's `str.count`-style scan over all
positions; used to state the patcher claims). -/
def countOccs (pat : List Char) : List Char → Nat
  | [] => if pat <+: ([] : List Char) then 1 else 0
  | c :: t' =>
    (if pat <+: c :: t' then 1 else 0) + countOccs pat t'

/-- `text.replace(pat, rep, 1)`: replace the first (leftmost) occurrence
of `pat`, the identity when `pat` does not occur. -/
def replaceFirst (pat rep : List Char) : List Char → List Char
  | [] => if pat <+: ([] : List Char) then rep else []
  | c :: t' =>
    if pat <+: c :: t' then rep ++ (c :: t').drop pat.length
    else c :: replaceFirst pat rep t'

/-- The whole patcher script on the file's text: `needle not in text`
aborts the process via `raise SystemExit(message)` (exit status 1, nothing
written, modelled as `Except.error`); otherwise the text with the first
occurrence replaced is written back (`Except.ok`). -/
def lemonPatch (text : List Char) : Except String (List Char) :=
  if needle <:+: text then Except.ok (replaceFirst needle replacement text)
  else Except.error notFoundMsg

/-! ## Concrete classifier examples (claims C1 and C6) -/

set_option maxRecDepth 4000 in
/-- C1: the classifier satisfies the spec's concrete examples:
`classify("feat: add login") = "feat: add login"`,
`classify("BUGFIX: patch leak") = "fix: patch leak"`,
`classify("Fix: nothing") = "fix: nothing"`,
`classify("") = "chore: empty commit"`, and
`classify("random text") = "chore: random text"`. -/
theorem C1_classify_examples :
    classify ("feat: add login".toList) = ("feat: add login").toList ∧
    classify ("BUGFIX: patch leak".toList) = ("fix: patch leak").toList ∧
    classify ("Fix: nothing".toList) = ("fix: nothing").toList ∧
    classify ([] : List Char) = ("chore: empty commit").toList ∧
    classify ("random text".toList) = ("chore: random text").toList := by
  refine ⟨?_, ?_, ?_, ?_, ?_⟩ <;> decide

set_option maxRecDepth 4000 in
/-- C6 counterexample: the claim states that `classify("Fixed bug")` does
not return `"chore: Fixed bug"`; in fact it returns exactly that string
(the keyword alternative `Fix` is rejected by the word boundary `\b`
because `e` follows it, no other alternative matches, and the default
branch wraps the line as a chore), so the claimed inequality is false. -/
theorem C6_counterexample :
    ¬ (classify ("Fixed bug".toList) ≠ ("chore: Fixed bug").toList) := by
  intro h
  exact h (by decide)

set_option maxRecDepth 4000 in
/-- C6 amended: `classify("Fixed bug")` returns `"chore: Fixed bug"`. -/
theorem C6_amended_fixed_bug :
    classify ("Fixed bug".toList) = ("chore: Fixed bug").toList := by
  decide

/-! ## Identity rewrite (claims C2 and C8) -/

/-- C2: a commit whose author name equals the target name or whose author
email equals the target email gets both author fields overwritten with the
replacement identity, and independently likewise for the committer
fields. -/
theorem C2_identity_rewrite (c : Commit) :
    ((c.author_name = target_name ∨ c.author_email = target_email) →
      (author_rewrite c).author_name = new_name ∧
      (author_rewrite c).author_email = new_email) ∧
    ((c.committer_name = target_name ∨ c.committer_email = target_email) →
      (author_rewrite c).committer_name = new_name ∧
      (author_rewrite c).committer_email = new_email) := by
  unfold author_rewrite
  dsimp only
  constructor
  · intro h
    simp only [if_pos h]
    split <;> simp
  · intro h
    split_ifs <;> simp_all

/-- C2 witness: the rewrite at a commit matching by author name and by
committer email. -/
theorem C2_identity_rewrite_witness :
    (author_rewrite ⟨"Framers", "x@y.z", "Someone", "team@frame.dev"⟩).author_name
        = new_name ∧
    (author_rewrite ⟨"Framers", "x@y.z", "Someone", "team@frame.dev"⟩).committer_email
        = new_email :=
  ⟨((C2_identity_rewrite _).1 (Or.inl rfl)).1,
   ((C2_identity_rewrite _).2 (Or.inr rfl)).2⟩

/-- C8: a commit whose author fields match neither the target name nor the
target email keeps both author fields unchanged, and likewise
independently for the committer fields. -/
theorem C8_identity_noop (c : Commit) :
    ((c.author_name ≠ target_name ∧ c.author_email ≠ target_email) →
      (author_rewrite c).author_name = c.author_name ∧
      (author_rewrite c).author_email = c.author_email) ∧
    ((c.committer_name ≠ target_name ∧ c.committer_email ≠ target_email) →
      (author_rewrite c).committer_name = c.committer_name ∧
      (author_rewrite c).committer_email = c.committer_email) := by
  unfold author_rewrite
  dsimp only
  constructor
  · intro h
    have hna : ¬ (c.author_name = target_name ∨ c.author_email = target_email) := by
      rintro (h1 | h2)
      · exact h.1 h1
      · exact h.2 h2
    simp only [if_neg hna]
    split <;> simp
  · intro h
    have hnc : ¬ (c.committer_name = target_name ∨ c.committer_email = target_email) := by
      rintro (h1 | h2)
      · exact h.1 h1
      · exact h.2 h2
    split_ifs <;> simp_all

/-! ## Occurrence-counting theory for the patcher (claims C3 and C4) -/

/-- Append cancellation for prefixes:
`a ++ x <+: a ++ y` implies `x <+: y`. -/
theorem prefix_cancel_left {α : Type} (a : List α) {x y : List α}
    (h : a ++ x <+: a ++ y) : x <+: y := by
  induction a with
  | nil => simpa using h
  | cons c a ih => exact ih (by simpa [List.cons_prefix_cons] using h)

/-- A prefix of `y ++ z` no longer than `y` is a prefix of `y`. -/
theorem prefix_of_append_of_length_le {α : Type} [DecidableEq α]
    {x y z : List α} (h : x <+: y ++ z) (hl : x.length ≤ y.length) :
    x <+: y := by
  have hx := List.prefix_iff_eq_take.mp h
  rw [List.take_append_eq_append_take, Nat.sub_eq_zero_of_le hl, List.take_zero,
    List.append_nil] at hx
  rw [hx]
  exact List.take_prefix _ _

/-- Dropping past a left part: `(A ++ X).drop (A.length + m) = X.drop m`. -/
theorem drop_append_middle {α : Type} (A X : List α) (m : Nat) :
    (A ++ X).drop (A.length + m) = X.drop m := by
  rw [List.drop_append_eq_append_drop,
    List.drop_eq_nil_of_le (Nat.le_add_right _ _), Nat.add_sub_cancel_left,
    List.nil_append]

/-- `countOccs pat t = 0` iff `pat` occurs at no start position of `t`. -/
theorem countOccs_eq_zero_iff (pat : List Char) (t : List Char) :
    countOccs pat t = 0 ↔ ∀ i, ¬ pat <+: t.drop i := by
  induction t with
  | nil =>
    simp only [countOccs, List.drop_nil]
    split <;> simp_all
  | cons c t' ih =>
    simp only [countOccs, Nat.add_eq_zero]
    constructor
    · rintro ⟨h0, h1⟩ i
      match i with
      | 0 =>
        intro hp
        rw [List.drop_zero] at hp
        rw [if_pos hp] at h0
        exact one_ne_zero h0
      | i + 1 =>
        rw [List.drop_succ_cons]
        exact (ih.mp h1) i
    · intro h
      refine ⟨?_, ih.mpr fun i => ?_⟩
      · have h0 := h 0
        rw [List.drop_zero] at h0
        rw [if_neg h0]
      · have := h (i + 1)
        rwa [List.drop_succ_cons] at this

/-- If `pat` occurs at position `i` of `t` and nowhere else, then
`countOccs pat t = 1`. -/
theorem countOccs_eq_one_of (pat : List Char) :
    ∀ (t : List Char) (i : Nat), pat <+: t.drop i →
      (∀ j, j ≠ i → ¬ pat <+: t.drop j) → countOccs pat t = 1 := by
  intro t
  induction t with
  | nil =>
    intro i hi hu
    rw [List.drop_nil] at hi
    simp only [countOccs, if_pos hi]
  | cons c t' ih =>
    intro i hi hu
    match i with
    | 0 =>
      rw [List.drop_zero] at hi
      simp only [countOccs, if_pos hi]
      have h0 : countOccs pat t' = 0 := by
        rw [countOccs_eq_zero_iff]
        intro j hj
        exact hu (j + 1) (Nat.succ_ne_zero j) (by rwa [List.drop_succ_cons])
      omega
    | i + 1 =>
      rw [List.drop_succ_cons] at hi
      have h0 : ¬ pat <+: c :: t' := by
        intro hp
        exact hu 0 (by omega) (by rwa [List.drop_zero])
      simp only [countOccs, if_neg h0, Nat.zero_add]
      exact ih i hi fun j hj hp =>
        hu (j + 1) (by omega) (by rwa [List.drop_succ_cons])

/-- A string with exactly one occurrence of a nonempty `pat` has a unique
occurrence position. -/
theorem countOccs_one_pos (pat : List Char) (hne : pat ≠ []) :
    ∀ t : List Char, countOccs pat t = 1 →
      ∃ i, pat <+: t.drop i ∧ ∀ j, j ≠ i → ¬ pat <+: t.drop j := by
  intro t
  induction t with
  | nil =>
    intro h
    simp only [countOccs] at h
    split at h
    · next hp => exact absurd (List.prefix_nil.mp hp) hne
    · exact absurd h one_ne_zero.symm
  | cons c t' ih =>
    intro h
    simp only [countOccs] at h
    by_cases hp : pat <+: c :: t'
    · rw [if_pos hp] at h
      have h0 : countOccs pat t' = 0 := by omega
      refine ⟨0, by rwa [List.drop_zero], fun j hj hq => ?_⟩
      match j, hj with
      | j + 1, _ =>
        rw [List.drop_succ_cons] at hq
        exact (countOccs_eq_zero_iff pat t').mp h0 j hq
    · rw [if_neg hp, Nat.zero_add] at h
      obtain ⟨i, hi, hu⟩ := ih h
      refine ⟨i + 1, by rwa [List.drop_succ_cons], fun j hj hq => ?_⟩
      match j with
      | 0 => exact hp (by rwa [List.drop_zero] at hq)
      | j + 1 =>
        rw [List.drop_succ_cons] at hq
        exact hu j (by omega) hq

/-- `replaceFirst` at the leftmost occurrence: if `pat` occurs at `i` and
at no earlier position, the result splices `rep` in place of `pat`. -/
theorem replaceFirst_at_first (pat rep : List Char) :
    ∀ (t : List Char) (i : Nat), pat <+: t.drop i →
      (∀ j, j < i → ¬ pat <+: t.drop j) →
      replaceFirst pat rep t = t.take i ++ (rep ++ (t.drop i).drop pat.length) := by
  intro t
  induction t with
  | nil =>
    intro i hi _
    rw [List.drop_nil] at hi
    have hpat : pat = [] := List.prefix_nil.mp hi
    subst hpat
    simp [replaceFirst]
  | cons c t' ih =>
    intro i hi hmin
    match i with
    | 0 =>
      rw [List.drop_zero] at hi
      simp only [replaceFirst, if_pos hi, List.take_zero, List.drop_zero,
        List.nil_append]
    | i + 1 =>
      have h0 : ¬ pat <+: c :: t' := by
        have := hmin 0 (Nat.succ_pos i)
        rwa [List.drop_zero] at this
      rw [List.drop_succ_cons] at hi
      simp only [replaceFirst, if_neg h0, List.take_succ_cons,
        List.drop_succ_cons, List.cons_append]
      rw [ih i hi fun j hj hq => hmin (j + 1) (by omega) (by rwa [List.drop_succ_cons])]

/-- Replacing the unique occurrence of `n` by `r`: if `n` occurs exactly
once in `t` and `r` not at all, and the fixed strings `n`, `r` have no
self- or cross-overlaps (hypotheses `fa`–`fd`, decidable facts of the two
literals), then afterwards `n` occurs zero times and `r` exactly once. -/
theorem replaceFirst_unique_counts
    (n r : List Char) (hnn : n ≠ []) (hnr : n.length ≤ r.length)
    (fa : ∀ j, j < r.length → ¬ n <+: r.drop j)
    (fb : ∀ k, 0 < k → k < n.length → ¬ n.drop k <+: r)
    (fc : ∀ k, 0 < k → k < r.length → ¬ r.drop k <+: n)
    (fd : ∀ k, 0 < k → k < r.length → ¬ r.drop k <+: r)
    (t : List Char) (h1 : countOccs n t = 1) (h2 : countOccs r t = 0) :
    countOccs n (replaceFirst n r t) = 0 ∧
      countOccs r (replaceFirst n r t) = 1 := by
  have hnlen : 0 < n.length := List.length_pos.mpr hnn
  have hrlen : 0 < r.length := Nat.lt_of_lt_of_le hnlen hnr
  obtain ⟨i, hi, hu⟩ := countOccs_one_pos n hnn t h1
  have hall : ∀ p, ¬ r <+: t.drop p := (countOccs_eq_zero_iff r t).mp h2
  have hitlen : i < t.length := by
    by_contra hge
    push_neg at hge
    rw [List.drop_eq_nil_of_le hge] at hi
    exact hnn (List.prefix_nil.mp hi)
  set A := t.take i with hA
  set B := (t.drop i).drop n.length with hB
  have hAlen : A.length = i := by
    rw [hA, List.length_take]
    omega
  have hdropi : t.drop i = n ++ B := by
    rw [hB]
    exact (List.prefix_iff_eq_append.mp hi).symm
  have htdec : t = A ++ (n ++ B) := by
    rw [hA, ← hdropi, List.take_append_drop]
  have hrw : replaceFirst n r t = A ++ (r ++ B) := by
    rw [replaceFirst_at_first n r t i hi (fun j hj => hu j (by omega)), hA, hB]
  constructor
  · rw [hrw, countOccs_eq_zero_iff]
    intro j hpre
    rw [List.drop_append_eq_append_drop, hAlen] at hpre
    rcases Nat.lt_or_ge j i with hj | hj
    · rw [Nat.sub_eq_zero_of_le (Nat.le_of_lt hj), List.drop_zero] at hpre
      rcases List.prefix_or_prefix_of_prefix hpre
          (List.prefix_append (A.drop j) (r ++ B)) with hc | hc
      · refine hu j (by omega) ?_
        rw [htdec, List.drop_append_eq_append_drop, hAlen,
          Nat.sub_eq_zero_of_le (Nat.le_of_lt hj), List.drop_zero]
        exact hc.trans (List.prefix_append _ _)
      · have hle := hc.length_le
        have hk : (A.drop j).length = i - j := by rw [List.length_drop, hAlen]
        rcases Nat.lt_or_ge (A.drop j).length n.length with hlt | hge
        · have hdpre : n.drop (A.drop j).length <+: r ++ B := by
            apply prefix_cancel_left (A.drop j)
            rw [List.prefix_iff_eq_append.mp hc]
            exact hpre
          have hdl : (n.drop (A.drop j).length).length ≤ r.length := by
            rw [List.length_drop]
            omega
          exact fb (A.drop j).length (by omega) hlt
            (prefix_of_append_of_length_le hdpre hdl)
        · have heqn : A.drop j = n := hc.eq_of_length (by omega)
          refine hu j (by omega) ?_
          rw [htdec, List.drop_append_eq_append_drop, hAlen,
            Nat.sub_eq_zero_of_le (Nat.le_of_lt hj), List.drop_zero, heqn]
          exact List.prefix_append _ _
    · rw [List.drop_eq_nil_of_le (by omega), List.nil_append,
        List.drop_append_eq_append_drop] at hpre
      rcases Nat.lt_or_ge (j - i) r.length with hlt | hge
      · rw [Nat.sub_eq_zero_of_le (Nat.le_of_lt hlt), List.drop_zero] at hpre
        rcases List.prefix_or_prefix_of_prefix hpre
            (List.prefix_append (r.drop (j - i)) B) with hc | hc
        · exact fa (j - i) hlt hc
        · rcases Nat.eq_zero_or_pos (j - i) with hz | hpos
          · rw [hz, List.drop_zero] at hc
            have hlen := hc.length_le
            have heq : r = n := hc.eq_of_length (by omega)
            apply fa 0 hrlen
            rw [List.drop_zero, heq]
          · exact fc (j - i) hpos hlt hc
      · rw [List.drop_eq_nil_of_le hge, List.nil_append] at hpre
        refine hu (i + (n.length + (j - i - r.length))) (by omega) ?_
        have key : t.drop (i + (n.length + (j - i - r.length)))
            = B.drop (j - i - r.length) := by
          rw [htdec, ← hAlen, drop_append_middle, drop_append_middle]
        rw [key]
        exact hpre
  · rw [hrw]
    apply countOccs_eq_one_of r (A ++ (r ++ B)) i
    · rw [List.drop_append_eq_append_drop, hAlen, Nat.sub_self, List.drop_zero,
        List.drop_eq_nil_of_le (Nat.le_of_eq hAlen), List.nil_append]
      exact List.prefix_append _ _
    · intro j hjne hpre
      rw [List.drop_append_eq_append_drop, hAlen] at hpre
      rcases Nat.lt_or_ge j i with hj | hj
      · rw [Nat.sub_eq_zero_of_le (Nat.le_of_lt hj), List.drop_zero] at hpre
        rcases List.prefix_or_prefix_of_prefix hpre
            (List.prefix_append (A.drop j) (r ++ B)) with hc | hc
        · refine hall j ?_
          rw [htdec, List.drop_append_eq_append_drop, hAlen,
            Nat.sub_eq_zero_of_le (Nat.le_of_lt hj), List.drop_zero]
          exact hc.trans (List.prefix_append _ _)
        · have hle := hc.length_le
          have hk : (A.drop j).length = i - j := by rw [List.length_drop, hAlen]
          rcases Nat.lt_or_ge (A.drop j).length r.length with hlt | hge
          · have hdpre : r.drop (A.drop j).length <+: r ++ B := by
              apply prefix_cancel_left (A.drop j)
              rw [List.prefix_iff_eq_append.mp hc]
              exact hpre
            have hdl : (r.drop (A.drop j).length).length ≤ r.length := by
              rw [List.length_drop]
              omega
            exact fd (A.drop j).length (by omega) hlt
              (prefix_of_append_of_length_le hdpre hdl)
          · have heqr : A.drop j = r := hc.eq_of_length (by omega)
            refine hall j ?_
            rw [htdec, List.drop_append_eq_append_drop, hAlen,
              Nat.sub_eq_zero_of_le (Nat.le_of_lt hj), List.drop_zero, heqr]
            exact List.prefix_append _ _
      · rw [List.drop_eq_nil_of_le (by omega), List.nil_append,
          List.drop_append_eq_append_drop] at hpre
        have hj'pos : 0 < j - i := by omega
        rcases Nat.lt_or_ge (j - i) r.length with hlt | hge
        · rw [Nat.sub_eq_zero_of_le (Nat.le_of_lt hlt), List.drop_zero] at hpre
          rcases List.prefix_or_prefix_of_prefix hpre
              (List.prefix_append (r.drop (j - i)) B) with hc | hc
          · have hlen := hc.length_le
            rw [List.length_drop] at hlen
            omega
          · exact fd (j - i) hj'pos hlt hc
        · rw [List.drop_eq_nil_of_le hge, List.nil_append] at hpre
          refine hall (i + (n.length + (j - i - r.length))) ?_
          have key : t.drop (i + (n.length + (j - i - r.length)))
              = B.drop (j - i - r.length) := by
            rw [htdec, ← hAlen, drop_append_middle, drop_append_middle]
          rw [key]
          exact hpre

/-- An occurrence at a position is an occurrence. -/
theorem isInfix_of_prefix_drop {x t : List Char} {i : Nat}
    (h : x <+: t.drop i) : x <:+: t := by
  obtain ⟨u, hu⟩ := h
  refine ⟨t.take i, u, ?_⟩
  rw [List.append_assoc, hu, List.take_append_drop]

set_option maxRecDepth 16000 in
/-- The needle of the patcher is nonempty and no longer than its
replacement. -/
theorem needle_basic : needle ≠ [] ∧ needle.length ≤ replacement.length := by
  refine ⟨by decide, by decide⟩

set_option maxRecDepth 16000 in
/-- The needle occurs nowhere in the replacement (checked positionally). -/
theorem needle_not_in_replacement :
    ((List.range replacement.length).all
      (fun j => !(needle.isPrefixOf (replacement.drop j)))) = true := by
  decide

set_option maxRecDepth 16000 in
/-- No proper nonempty suffix of the needle is a prefix of the
replacement. -/
theorem needle_suffix_not_replacement :
    ((List.range needle.length).all
      (fun k => (k == 0) || !((needle.drop k).isPrefixOf replacement))) = true := by
  decide

set_option maxRecDepth 16000 in
/-- No proper nonempty suffix of the replacement is a prefix of the
needle. -/
theorem replacement_suffix_not_needle :
    ((List.range replacement.length).all
      (fun k => (k == 0) || !((replacement.drop k).isPrefixOf needle))) = true := by
  decide

set_option maxRecDepth 16000 in
/-- The replacement does not overlap itself: no proper nonempty suffix of
it is a prefix of it. -/
theorem replacement_no_self_overlap :
    ((List.range replacement.length).all
      (fun k => (k == 0) || !((replacement.drop k).isPrefixOf replacement))) = true := by
  decide

/-- Positional form of `needle_not_in_replacement`. -/
theorem fa_fact : ∀ j, j < replacement.length → ¬ needle <+: replacement.drop j := by
  intro j hj hp
  have h := List.all_eq_true.mp needle_not_in_replacement j (List.mem_range.mpr hj)
  rw [List.isPrefixOf_iff_prefix.mpr hp] at h
  simp at h

/-- Positional form of `needle_suffix_not_replacement`. -/
theorem fb_fact : ∀ k, 0 < k → k < needle.length → ¬ needle.drop k <+: replacement := by
  intro k hk0 hk hp
  have h := List.all_eq_true.mp needle_suffix_not_replacement k (List.mem_range.mpr hk)
  rw [List.isPrefixOf_iff_prefix.mpr hp] at h
  simp at h
  omega

/-- Positional form of `replacement_suffix_not_needle`. -/
theorem fc_fact : ∀ k, 0 < k → k < replacement.length → ¬ replacement.drop k <+: needle := by
  intro k hk0 hk hp
  have h := List.all_eq_true.mp replacement_suffix_not_needle k (List.mem_range.mpr hk)
  rw [List.isPrefixOf_iff_prefix.mpr hp] at h
  simp at h
  omega

/-- Positional form of `replacement_no_self_overlap`. -/
theorem fd_fact : ∀ k, 0 < k → k < replacement.length → ¬ replacement.drop k <+: replacement := by
  intro k hk0 hk hp
  have h := List.all_eq_true.mp replacement_no_self_overlap k (List.mem_range.mpr hk)
  rw [List.isPrefixOf_iff_prefix.mpr hp] at h
  simp at h
  omega

/-- C4: on a file text that does not contain the expected fragment, the
patcher aborts the process with the fixed message (a `SystemExit` carrying
a string exits with status 1) and produces no output text, so the file is
never written and stays unmodified. -/
theorem C4_patcher_missing_aborts (text : List Char)
    (h : ¬ needle <:+: text) :
    lemonPatch text = Except.error notFoundMsg := by
  unfold lemonPatch
  rw [if_neg h]

set_option maxRecDepth 16000 in
/-- C4 witness: the patcher aborts on the empty file. -/
theorem C4_patcher_missing_aborts_witness :
    lemonPatch [] = Except.error notFoundMsg :=
  C4_patcher_missing_aborts [] (by decide)

set_option maxRecDepth 16000 in
/-- C3 counterexample: the claim quantifies over every file text with
exactly one occurrence of the expected fragment and asserts the patched
file contains the replacement fragment exactly once.  The text
`replacement ++ needle` contains the needle exactly once, yet after the
patcher runs the replacement fragment occurs twice, so the claim as stated
is false. -/
theorem C3_counterexample :
    countOccs needle (replacement ++ needle) = 1 ∧
    lemonPatch (replacement ++ needle)
      = Except.ok (replaceFirst needle replacement (replacement ++ needle)) ∧
    countOccs replacement
      (replaceFirst needle replacement (replacement ++ needle)) = 2 := by
  refine ⟨by decide, ?_, by decide⟩
  unfold lemonPatch
  rw [if_pos (by decide)]

/-- C3 amended: for every file text containing the expected fragment
exactly once and not already containing the replacement fragment, the
patcher succeeds, replacing the first (unique) occurrence, and afterwards
the file contains the replacement fragment exactly once and the expected
fragment zero times (so a second run fails the presence check). -/
theorem C3_patch_once (text : List Char)
    (h1 : countOccs needle text = 1)
    (h2 : countOccs replacement text = 0) :
    lemonPatch text = Except.ok (replaceFirst needle replacement text) ∧
    countOccs needle (replaceFirst needle replacement text) = 0 ∧
    countOccs replacement (replaceFirst needle replacement text) = 1 := by
  have hcounts := replaceFirst_unique_counts needle replacement
    needle_basic.1 needle_basic.2 fa_fact fb_fact fc_fact fd_fact text h1 h2
  refine ⟨?_, hcounts.1, hcounts.2⟩
  obtain ⟨i, hi, -⟩ := countOccs_one_pos needle needle_basic.1 text h1
  unfold lemonPatch
  rw [if_pos (isInfix_of_prefix_drop hi)]

set_option maxRecDepth 16000 in
/-- C3 witness: running the patcher on a file that is exactly the needle
yields exactly the replacement. -/
theorem C3_patch_once_witness :
    lemonPatch needle = Except.ok (replaceFirst needle replacement needle) ∧
    countOccs needle (replaceFirst needle replacement needle) = 0 ∧
    countOccs replacement (replaceFirst needle replacement needle) = 1 :=
  C3_patch_once needle (by decide) (by decide)

/-- C8 witness: a commit matching neither target keeps its fields. -/
theorem C8_identity_noop_witness :
    (author_rewrite ⟨"Alice", "a@b.c", "Bob", "d@e.f"⟩).author_name = "Alice" ∧
    (author_rewrite ⟨"Alice", "a@b.c", "Bob", "d@e.f"⟩).committer_email = "d@e.f" :=
  ⟨((C8_identity_noop _).1 ⟨by decide, by decide⟩).1,
   ((C8_identity_noop _).2 ⟨by decide, by decide⟩).2⟩

/-! ## Shape of classifier output (claims C10, C7, C9) -/

/-- `dropWhile` keeps a list unchanged iff its head fails the predicate. -/
theorem dropWhile_eq_self_iff_head (p : Char → Bool) (l : List Char) :
    l.dropWhile p = l ↔ ∀ c ∈ l.head?, p c = false := by
  cases l with
  | nil => simp
  | cons c t =>
    rw [List.dropWhile_cons]
    constructor
    · intro h c' hc'
      have hcc : c' = c := by
        simp only [List.head?_cons, Option.mem_def, Option.some.injEq] at hc'
        exact hc'.symm
      subst hcc
      by_cases hp : p c' = true
      · rw [if_pos hp] at h
        have hlen := (List.dropWhile_suffix (l := t) p).length_le
        have hcon := congrArg List.length h
        simp only [List.length_cons] at hcon
        omega
      · simpa using hp
    · intro h
      have hc := h c (by simp)
      rw [hc]
      simp

/-- The head of a stripped string is not whitespace. -/
theorem pyStrip_drop_self (l : List Char) :
    (pyStrip l).dropWhile isPySpace = pyStrip l := by
  rw [dropWhile_eq_self_iff_head]
  intro c hc
  unfold pyStrip at hc
  have hyidem : (l.dropWhile isPySpace).dropWhile isPySpace
      = l.dropWhile isPySpace := List.dropWhile_idempotent _ _
  have hpre : ((l.dropWhile isPySpace).reverse.dropWhile isPySpace).reverse
      <+: l.dropWhile isPySpace := by
    have h2 := List.reverse_prefix.mpr
      (List.dropWhile_suffix (l := (l.dropWhile isPySpace).reverse) isPySpace)
    rwa [List.reverse_reverse] at h2
  obtain ⟨u, hu⟩ := hpre
  have hcy : c ∈ (l.dropWhile isPySpace).head? := by
    rw [← hu]
    cases hz : ((l.dropWhile isPySpace).reverse.dropWhile isPySpace).reverse with
    | nil => rw [hz] at hc; simp at hc
    | cons d w =>
      rw [hz] at hc
      simp only [List.head?_cons, Option.mem_def, Option.some.injEq] at hc
      subst hc
      simp
  exact (dropWhile_eq_self_iff_head _ _).mp hyidem c hcy

/-- The last character of a stripped string is not whitespace. -/
theorem pyStrip_reverse_drop_self (l : List Char) :
    (pyStrip l).reverse.dropWhile isPySpace = (pyStrip l).reverse := by
  unfold pyStrip
  rw [List.reverse_reverse]
  exact List.dropWhile_idempotent _ _

/-- Stripping a doubly-clean string is the identity. -/
theorem pyStrip_eq_self {l : List Char}
    (h1 : l.dropWhile isPySpace = l)
    (h2 : l.reverse.dropWhile isPySpace = l.reverse) :
    pyStrip l = l := by
  unfold pyStrip
  rw [h1, h2, List.reverse_reverse]

/-- A successful association-list lookup returns one of the stored
values. -/
theorem lookup_mem_snd {k v : List Char} :
    ∀ {l : List (List Char × List Char)},
      List.lookup k l = some v → v ∈ l.map Prod.snd := by
  intro l
  induction l with
  | nil => intro h; simp [List.lookup] at h
  | cons a l ih =>
    intro h
    obtain ⟨k', v'⟩ := a
    rw [List.lookup] at h
    split at h
    · simp only [Option.some.injEq] at h
      subst h
      simp
    · exact List.mem_cons_of_mem _ (ih h)

/-- Every value `typeOf` can return is one of the ten canonical types. -/
theorem typeOf_mem_canonical (k : List Char) : typeOf k ∈ canonicalTypes := by
  unfold typeOf
  cases h : List.lookup k TYPES with
  | none => decide
  | some v =>
    have hv := lookup_mem_snd h
    have hsub : ∀ x ∈ TYPES.map Prod.snd, x ∈ canonicalTypes := by decide
    simp only [Option.getD_some]
    exact hsub v hv

/-- Every classifier output is a canonical type, a colon and a space, and
a stripped remainder. -/
theorem classify_shape (s : List Char) :
    ∃ T R, T ∈ canonicalTypes ∧ classify s = T ++ ':' :: ' ' :: R ∧
      R.dropWhile isPySpace = R ∧ R.reverse.dropWhile isPySpace = R.reverse := by
  unfold classify
  cases h1 : tryColonForm (pyStrip s) with
  | some tr =>
    obtain ⟨t, rest⟩ := tr
    exact ⟨typeOf (toLowerStr t), pyStrip rest, typeOf_mem_canonical _, rfl,
      pyStrip_drop_self _, pyStrip_reverse_drop_self _⟩
  | none =>
    cases h2 : tryKeywordForm (pyStrip s) with
    | some tr =>
      obtain ⟨rawt, rest⟩ := tr
      by_cases he : (pyStrip rest).isEmpty
      · refine ⟨typeOf (toLowerStr rawt), pyStrip s, typeOf_mem_canonical _,
          ?_, pyStrip_drop_self _, pyStrip_reverse_drop_self _⟩
        dsimp only
        rw [if_pos he]
      · refine ⟨typeOf (toLowerStr rawt), pyStrip rest, typeOf_mem_canonical _,
          ?_, pyStrip_drop_self _, pyStrip_reverse_drop_self _⟩
        dsimp only
        rw [if_neg he]
    | none =>
      by_cases he : (pyStrip s).isEmpty
      · refine ⟨"chore".toList, "empty commit".toList, by decide, ?_,
          by decide, by decide⟩
        dsimp only
        rw [if_pos he]
        decide
      · refine ⟨"chore".toList, pyStrip s, by decide, ?_,
          pyStrip_drop_self _, pyStrip_reverse_drop_self _⟩
        dsimp only
        rw [if_neg he]

/-- C10: for every input string, the string returned by `classify` begins
with one of the ten canonical type keywords (the value set of the static
`TYPES` mapping) followed by a colon and a space. -/
theorem C10_classify_canonical (s : List Char) :
    ∃ T R, T ∈ canonicalTypes ∧ classify s = T ++ ':' :: ' ' :: R := by
  obtain ⟨T, R, hT, heq, -, -⟩ := classify_shape s
  exact ⟨T, R, hT, heq⟩

/-- An ASCII letter is not whitespace. -/
theorem not_space_of_alpha {c : Char} (h : isAsciiAlpha c = true) :
    isPySpace c = false := by
  unfold isAsciiAlpha at h
  unfold isPySpace
  rw [decide_eq_true_iff] at h
  rw [decide_eq_false_iff_not]
  omega

/-- Prepending a nonempty `dropWhile`-fixed list keeps `dropWhile`
fixed. -/
theorem dropWhile_eq_self_append {p : Char → Bool} {x : List Char}
    (hx : x.dropWhile p = x) (hxe : x ≠ []) (y : List Char) :
    (x ++ y).dropWhile p = x ++ y := by
  cases x with
  | nil => exact absurd rfl hxe
  | cons c t =>
    have hc := (dropWhile_eq_self_iff_head p _).mp hx c (by simp)
    rw [List.cons_append, List.dropWhile_cons, hc]
    simp

/-- A list of non-predicate characters is `dropWhile`-fixed. -/
theorem dropWhile_eq_self_of_all {p : Char → Bool} {x : List Char}
    (hx : ∀ c ∈ x, p c = false) : x.dropWhile p = x := by
  cases x with
  | nil => rfl
  | cons c t =>
    rw [List.dropWhile_cons, hx c (by simp)]
    simp

/-- `takeWhile` over an all-true block followed by a stopper. -/
theorem takeWhile_append_stop {q : Char → Bool} {T : List Char}
    (hT : ∀ c ∈ T, q c = true) {x : Char} (hx : q x = false) (z : List Char) :
    (T ++ x :: z).takeWhile q = T := by
  induction T with
  | nil => simp [List.takeWhile_cons, hx]
  | cons c t ih =>
    have hc := hT c (by simp)
    rw [List.cons_append, List.takeWhile_cons, hc]
    simp only [if_true]
    rw [ih (fun c hm => hT c (List.mem_cons_of_mem _ hm))]

/-- `dropWhile` over an all-true block followed by a stopper. -/
theorem dropWhile_append_stop {q : Char → Bool} {T : List Char}
    (hT : ∀ c ∈ T, q c = true) {x : Char} (hx : q x = false) (z : List Char) :
    (T ++ x :: z).dropWhile q = x :: z := by
  induction T with
  | nil => simp [List.dropWhile_cons, hx]
  | cons c t ih =>
    have hc := hT c (by simp)
    rw [List.cons_append, List.dropWhile_cons, hc]
    simp only [if_true]
    exact ih (fun c hm => hT c (List.mem_cons_of_mem _ hm))

/-- The colon-form regex on a canonical subject `T ++ ": " ++ R` with `R`
leading-clean and newline-free matches with groups `T` and `R`. -/
theorem tryColonForm_canonical {T R : List Char} (hTne : T ≠ [])
    (hTalpha : ∀ c ∈ T, isAsciiAlpha c = true)
    (hR1 : R.dropWhile isPySpace = R) (hnl : '\n' ∉ R) :
    tryColonForm (T ++ ':' :: ' ' :: R) = some (T, R) := by
  unfold tryColonForm
  rw [takeWhile_append_stop hTalpha (by decide) _,
    dropWhile_append_stop hTalpha (by decide) _]
  rw [if_neg (by simp [List.isEmpty_iff, hTne])]
  rw [show afterTypeToken (':' :: ' ' :: R) = some (':' :: ' ' :: R) from by
    simp only [afterTypeToken]
    rw [if_neg (by decide)]]
  dsimp only
  rw [if_pos rfl]
  have hspace : isPySpace ' ' = true := by decide
  rw [List.dropWhile_cons, if_pos hspace, hR1, if_neg hnl]

/-- The colon-form regex on `T ++ ":"` (the stripped form of a canonical
subject with empty remainder) matches with groups `T` and `""`. -/
theorem tryColonForm_colon_only {T : List Char} (hTne : T ≠ [])
    (hTalpha : ∀ c ∈ T, isAsciiAlpha c = true) :
    tryColonForm (T ++ [':']) = some (T, []) := by
  unfold tryColonForm
  rw [takeWhile_append_stop hTalpha (by decide) _,
    dropWhile_append_stop hTalpha (by decide) _]
  rw [if_neg (by simp [List.isEmpty_iff, hTne])]
  rw [show afterTypeToken (':' :: ([] : List Char)) = some [':'] from by
    simp only [afterTypeToken]
    rw [if_neg (by decide)]]
  dsimp only
  rw [if_pos rfl]
  simp

/-- Stripping a canonical subject with nonempty trailing-clean remainder
changes nothing. -/
theorem pyStrip_canonical_cons {T R : List Char} (hTne : T ≠ [])
    (hTalpha : ∀ c ∈ T, isAsciiAlpha c = true) (hRne : R ≠ [])
    (hR2 : R.reverse.dropWhile isPySpace = R.reverse) :
    pyStrip (T ++ ':' :: ' ' :: R) = T ++ ':' :: ' ' :: R := by
  have hT : T.dropWhile isPySpace = T :=
    dropWhile_eq_self_of_all fun c hc => not_space_of_alpha (hTalpha c hc)
  apply pyStrip_eq_self
  · exact dropWhile_eq_self_append hT hTne _
  · have hrev : (T ++ ':' :: ' ' :: R).reverse
        = R.reverse ++ (' ' :: ':' :: T.reverse) := by
      simp [List.reverse_append]
    rw [hrev]
    exact dropWhile_eq_self_append hR2 (by simpa using hRne) _

/-- Stripping a canonical subject with empty remainder removes exactly the
trailing space. -/
theorem pyStrip_canonical_nil {T : List Char} (hTne : T ≠ [])
    (hTalpha : ∀ c ∈ T, isAsciiAlpha c = true) :
    pyStrip (T ++ [':', ' ']) = T ++ [':'] := by
  have hT : T.dropWhile isPySpace = T :=
    dropWhile_eq_self_of_all fun c hc => not_space_of_alpha (hTalpha c hc)
  unfold pyStrip
  rw [dropWhile_eq_self_append hT hTne _]
  have hrev : (T ++ [':', ' ']).reverse = ' ' :: ':' :: T.reverse := by
    simp [List.reverse_append]
  rw [hrev]
  have hspace : isPySpace ' ' = true := by decide
  have hcolon : isPySpace ':' = false := by decide
  rw [List.dropWhile_cons, if_pos hspace, List.dropWhile_cons, hcolon]
  simp

/-- A canonical subject `T ++ ": " ++ R` built from a self-mapped type and
a stripped newline-free remainder is a fixed point of `classify`. -/
theorem classify_canonical_fixedpoint {T R : List Char} (hTne : T ≠ [])
    (hTalpha : ∀ c ∈ T, isAsciiAlpha c = true)
    (hTfix : typeOf (toLowerStr T) = T)
    (hR1 : R.dropWhile isPySpace = R)
    (hR2 : R.reverse.dropWhile isPySpace = R.reverse)
    (hnl : '\n' ∉ R) :
    classify (T ++ ':' :: ' ' :: R) = T ++ ':' :: ' ' :: R := by
  cases hR : R with
  | nil =>
    subst hR
    unfold classify
    rw [show T ++ ':' :: ' ' :: ([] : List Char) = T ++ [':', ' '] from rfl,
      pyStrip_canonical_nil hTne hTalpha,
      tryColonForm_colon_only hTne hTalpha]
    dsimp only
    rw [hTfix]
    rfl
  | cons d R' =>
    rw [← hR]
    have hRne : R ≠ [] := by rw [hR]; exact List.cons_ne_nil _ _
    unfold classify
    rw [pyStrip_canonical_cons hTne hTalpha hRne hR2,
      tryColonForm_canonical hTne hTalpha hR1 hnl]
    dsimp only
    rw [hTfix, pyStrip_eq_self hR1 hR2]

/-- Each canonical type is nonempty, all-letter, and a fixed point of the
lowercase-then-lookup step. -/
theorem canonical_fixed : ∀ T ∈ canonicalTypes,
    T ≠ [] ∧ (∀ c ∈ T, isAsciiAlpha c = true) ∧ typeOf (toLowerStr T) = T := by
  decide

set_option maxRecDepth 4000 in
/-- C7 counterexample: the claim asserts idempotence for every subject of
the form `"type: rest"` produced by `classify`.  The subject
`classify("a\nb") = "chore: a\nb"` has that form (type `chore`, canonical
and lowercase), but re-classifying it yields `"chore: chore: a\nb"`:
the embedded newline makes both regexes fail (`.*$` cannot span it), so
the whole subject is wrapped in a second `"chore: "` prefix. -/
theorem C7_counterexample :
    classify (classify ("a\nb".toList)) ≠ classify ("a\nb".toList) := by
  decide

/-- C7 amended: re-classifying a subject produced by `classify` yields the
same string provided the subject contains no newline — in particular for
every subject produced from a single-line input.  (A produced subject with
an embedded newline is instead wrapped in a second `"chore: "` prefix, as
the counterexample shows.) -/
theorem C7_classify_idempotent (s : List Char)
    (hnl : '\n' ∉ classify s) :
    classify (classify s) = classify s := by
  obtain ⟨T, R, hT, heq, hR1, hR2⟩ := classify_shape s
  obtain ⟨hTne, hTalpha, hTfix⟩ := canonical_fixed T hT
  rw [heq] at hnl ⊢
  have hnlR : '\n' ∉ R := by
    intro hm
    exact hnl (by simp [hm])
  exact classify_canonical_fixedpoint hTne hTalpha hTfix hR1 hR2 hnlR

set_option maxRecDepth 4000 in
/-- C7 witness: re-classifying the produced subject
`classify("feat: add login")` yields it unchanged. -/
theorem C7_classify_idempotent_witness :
    classify (classify ("feat: add login".toList))
      = classify ("feat: add login".toList) :=
  C7_classify_idempotent ("feat: add login".toList) (by decide)

/-! ## Whitespace collapsing (claim C9) -/

/-- The head emitted inside a whitespace run is never whitespace: the
run's own space was already emitted, and the scan skips to the next
non-whitespace character. -/
theorem collapseAux_true_head :
    ∀ t : List Char, ∀ c ∈ (collapseAux true t).head?, isPySpace c = false := by
  intro t
  induction t with
  | nil => simp [collapseAux]
  | cons d t ih =>
    intro c hc
    by_cases hd : isPySpace d
    · simp only [collapseAux, hd, if_true] at hc
      exact ih c hc
    · simp only [collapseAux, hd, Bool.false_eq_true, if_false,
        List.head?_cons, Option.mem_def, Option.some.injEq] at hc
      rw [← hc]
      simpa using hd

/-- The head emitted by `collapseWs` on a list whose head is not
whitespace is that head, hence not whitespace. -/
theorem collapseWs_head_not_space {l : List Char}
    (hl : l.dropWhile isPySpace = l) :
    ∀ c ∈ (collapseWs l).head?, isPySpace c = false := by
  cases l with
  | nil => simp [collapseWs, collapseAux]
  | cons d t =>
    have hd := (dropWhile_eq_self_iff_head isPySpace _).mp hl d (by simp)
    intro c hc
    simp only [collapseWs, collapseAux, hd, Bool.false_eq_true, if_false,
      List.head?_cons, Option.mem_def, Option.some.injEq] at hc
    rw [← hc]
    exact hd

/-- After collapsing, no two adjacent characters are both whitespace. -/
theorem collapseAux_chain :
    ∀ (l : List Char) (b : Bool),
      List.Chain' (fun a b => isPySpace a = false ∨ isPySpace b = false)
        (collapseAux b l) := by
  intro l
  induction l with
  | nil => intro b; simp [collapseAux]
  | cons c t ih =>
    intro b
    by_cases hc : isPySpace c
    · cases b
      · simp only [collapseAux, hc, if_true, Bool.false_eq_true, if_false]
        rw [List.chain'_cons']
        exact ⟨fun y hy => Or.inr (collapseAux_true_head t y hy), ih true⟩
      · simp only [collapseAux, hc, if_true]
        exact ih true
    · simp only [collapseAux, hc, Bool.false_eq_true, if_false]
      rw [List.chain'_cons']
      exact ⟨fun y hy => Or.inl (by simpa using hc), ih false⟩

/-- After collapsing, no two adjacent characters are both whitespace. -/
theorem collapseWs_chain (l : List Char) :
    List.Chain' (fun a b => isPySpace a = false ∨ isPySpace b = false)
      (collapseWs l) :=
  collapseAux_chain l false

/-- After collapsing, every whitespace character is a plain space. -/
theorem collapseAux_space_is_blank :
    ∀ (l : List Char) (b : Bool), ∀ c ∈ collapseAux b l,
      isPySpace c = true → c = ' ' := by
  intro l
  induction l with
  | nil => intro b; simp [collapseAux]
  | cons c t ih =>
    intro b c' hc' hsp
    by_cases hc : isPySpace c
    · cases b
      · simp only [collapseAux, hc, if_true, Bool.false_eq_true, if_false] at hc'
        rcases List.mem_cons.mp hc' with h | h
        · exact h
        · exact ih true c' h hsp
      · simp only [collapseAux, hc, if_true] at hc'
        exact ih true c' hc' hsp
    · simp only [collapseAux, hc, Bool.false_eq_true, if_false] at hc'
      rcases List.mem_cons.mp hc' with h | h
      · subst h
        exact absurd hsp (by simpa using hc)
      · exact ih false c' h hsp

/-- After collapsing, every whitespace character is a plain space. -/
theorem collapseWs_space_is_blank (l : List Char) :
    ∀ c ∈ collapseWs l, isPySpace c = true → c = ' ' :=
  collapseAux_space_is_blank l false

/-- A chain property survives truncation. -/
theorem chain_take {P : Char → Char → Prop} :
    ∀ (l : List Char) (n : Nat), List.Chain' P l → List.Chain' P (l.take n) := by
  intro l
  induction l with
  | nil => intro n h; simp
  | cons c t ih =>
    intro n h
    match n with
    | 0 => simp
    | n + 1 =>
      rw [List.take_succ_cons, List.chain'_cons']
      rw [List.chain'_cons'] at h
      refine ⟨fun y hy => h.1 y ?_, ih n h.2⟩
      cases t with
      | nil => simp at hy
      | cons d t' =>
        match n with
        | 0 => simp at hy
        | n + 1 =>
          rw [List.take_succ_cons] at hy
          simpa using hy

/-- The strip step is a prefix of the leading-whitespace-free form. -/
theorem pyStrip_prefix_dropWhile (l : List Char) :
    pyStrip l <+: l.dropWhile isPySpace := by
  have h2 := List.reverse_prefix.mpr
    (List.dropWhile_suffix (l := (l.dropWhile isPySpace).reverse) isPySpace)
  rwa [List.reverse_reverse] at h2

/-- Stripping only removes characters. -/
theorem pyStrip_subset (l : List Char) : pyStrip l ⊆ l := by
  intro c hc
  exact (List.dropWhile_suffix isPySpace).subset
    ((pyStrip_prefix_dropWhile l).subset hc)

/-- The head survives truncation to a positive length. -/
theorem head?_take_succ (l : List Char) (n : Nat) :
    (l.take (n + 1)).head? = l.head? := by
  cases l with
  | nil => simp
  | cons c t => simp [List.take_succ_cons]

set_option maxRecDepth 8000 in
/-- C9 counterexample: the claim asserts the subject returned by
`normalize_subject` never has trailing whitespace.  On an input of 112
`x`s, a space and ten `y`s, the collapsed and trimmed subject
`"chore: xxx…x yyyyyyyyyy"` is 130 characters long, and truncation to 120
characters cuts right after the space at index 119, so the returned
subject ends in a space. -/
theorem C9_counterexample :
    (normalize_subject
        (List.replicate 112 'x' ++ ' ' :: List.replicate 10 'y')).getLast?
      = some ' ' ∧ isPySpace ' ' = true := by
  exact ⟨by decide, by decide⟩

/-- C9 amended: for every input string, the subject returned by
`normalize_subject` has no two adjacent whitespace characters, every
whitespace character in it is a single plain space, it has no leading
whitespace, and its length is at most 120; it also has no trailing
whitespace whenever the collapsed and trimmed subject is at most 120
characters long (truncation to 120 characters can otherwise cut
immediately after a space, leaving a trailing space, as the
counterexample shows). -/
theorem C9_normalize_subject_whitespace (s : List Char) :
    List.Chain' (fun a b => isPySpace a = false ∨ isPySpace b = false)
      (normalize_subject s) ∧
    (∀ c ∈ (normalize_subject s).head?, isPySpace c = false) ∧
    (∀ c ∈ normalize_subject s, isPySpace c = true → c = ' ') ∧
    (normalize_subject s).length ≤ 120 ∧
    ((pyStrip (collapseWs (classify s))).length ≤ 120 →
      ∀ c ∈ (normalize_subject s).getLast?, isPySpace c = false) := by
  refine ⟨?_, ?_, ?_, ?_, ?_⟩
  · -- no two adjacent whitespace characters
    unfold normalize_subject
    apply chain_take
    -- Chain' over pyStrip of a collapsed list: pyStrip keeps a sublist
    -- of the collapsed list that is contiguous, so reprove via the
    -- prefix/suffix structure: pyStrip l <+: l.dropWhile p <:+ l.
    have h1 := collapseWs_chain (classify s)
    -- chain' restricted to a prefix of a suffix
    have h2 : List.Chain' (fun a b => isPySpace a = false ∨ isPySpace b = false)
        ((collapseWs (classify s)).dropWhile isPySpace) := by
      obtain ⟨u, hu⟩ := List.dropWhile_suffix
        (l := collapseWs (classify s)) isPySpace
      rw [← hu] at h1
      exact (List.chain'_append.mp h1).2.1
    obtain ⟨v, hv⟩ := pyStrip_prefix_dropWhile (collapseWs (classify s))
    rw [← hv] at h2
    exact (List.chain'_append.mp h2).1
  · -- no leading whitespace
    unfold normalize_subject
    intro c hc
    rw [show (120 : Nat) = 119 + 1 from rfl, head?_take_succ] at hc
    have hself := pyStrip_drop_self (collapseWs (classify s))
    exact (dropWhile_eq_self_iff_head _ _).mp hself c hc
  · -- every whitespace character is a plain space
    intro c hc hsp
    unfold normalize_subject at hc
    exact collapseWs_space_is_blank (classify s) c
      (pyStrip_subset _ (List.take_subset _ _ hc)) hsp
  · -- length at most 120
    unfold normalize_subject
    rw [List.length_take]
    omega
  · -- no trailing whitespace when nothing is truncated away
    intro hlen c hc
    unfold normalize_subject at hc
    rw [List.take_of_length_le hlen] at hc
    rw [List.getLast?_eq_head?_reverse] at hc
    have hself := pyStrip_reverse_drop_self (collapseWs (classify s))
    exact (dropWhile_eq_self_iff_head _ _).mp hself c hc

set_option maxRecDepth 4000 in
/-- C9 witness: on `"  feat:   add login  "` the normalized subject is
`"feat: add login"`; its head `f` and last character `n` are not
whitespace. -/
theorem C9_normalize_subject_whitespace_witness :
    isPySpace 'f' = false ∧ isPySpace 'n' = false :=
  ⟨(C9_normalize_subject_whitespace ("  feat:   add login  ".toList)).2.1
      'f' (by decide),
   (C9_normalize_subject_whitespace ("  feat:   add login  ".toList)).2.2.2.2
      (by decide) 'n' (by decide)⟩

/-! ## Message assembly (claim C5) -/

/-- C5: `rename_message` keeps a nonempty-after-trimming body verbatim
below a blank line: for every message whose body trims to something
nonempty the result is `"<subject>\n\n<body>"` with the normalized
subject of the first line; in particular
`rename_message(b"feat: x\n\nsome body") = b"feat: x\n\nsome body"`;
and for every message with no such body the result is just the subject
(the empty message's fixed default `"chore: empty commit"` is equally the
normalized subject of the empty first line). -/
theorem C5_rename_message :
    (∀ msg : List Char, msg ≠ [] →
      pyStrip (restLines (pyStrip msg)) ≠ [] →
      rename_message msg
        = normalize_subject (firstLine (pyStrip msg))
            ++ '\n' :: '\n' :: pyStrip (restLines (pyStrip msg))) ∧
    rename_message ("feat: x\n\nsome body".toList)
      = ("feat: x\n\nsome body").toList ∧
    (∀ msg : List Char, pyStrip (restLines (pyStrip msg)) = [] →
      rename_message msg = normalize_subject (firstLine (pyStrip msg))) := by
  refine ⟨?_, by decide, ?_⟩
  · intro msg hne hbody
    unfold rename_message
    dsimp only
    rw [if_neg (by simp [List.isEmpty_iff, hne])]
    have hrne : (restLines (pyStrip msg)).isEmpty ≠ true := by
      intro h
      rw [List.isEmpty_iff] at h
      exact hbody (by rw [h]; rfl)
    rw [if_neg hrne, if_neg (by simp [List.isEmpty_iff, hbody])]
  · intro msg hbody
    unfold rename_message
    dsimp only
    by_cases hmsg : msg.isEmpty
    · rw [if_pos hmsg]
      rw [List.isEmpty_iff] at hmsg
      subst hmsg
      decide
    · rw [if_neg hmsg]
      by_cases hrest : (restLines (pyStrip msg)).isEmpty
      · rw [if_pos hrest]
      · rw [if_neg hrest, if_pos (by simp [List.isEmpty_iff, hbody])]

set_option maxRecDepth 4000 in
/-- C5 witness: the body-preserving branch applied to
`b"feat: x\n\nsome body"`. -/
theorem C5_rename_message_witness :
    rename_message ("feat: x\n\nsome body".toList)
      = normalize_subject (firstLine (pyStrip ("feat: x\n\nsome body".toList)))
          ++ '\n' :: '\n'
            :: pyStrip (restLines (pyStrip ("feat: x\n\nsome body".toList))) :=
  C5_rename_message.1 ("feat: x\n\nsome body".toList) (by decide) (by decide)
